import Mathlib

/-!
Verification of the xml-render parser core (src/parser.ts, src/registry.ts).

Strings are modelled as `List Char`.  JavaScript string operations are made
explicit: `slice` is `sliceJs`, `lastIndexOf("<")` is `lastIdxOfLt`,
`toLowerCase` is `lowerStr` (ASCII case folding; every input appearing in the
claims is ASCII).  The compiled regular expressions of the source are embedded
as executable matching functions with JavaScript backtracking semantics.
Loops of the source are embedded with an explicit fuel argument so that every
definition is structurally recursive and kernel-evaluable; `none` means the
fuel ran out (the streaming loop of the source can in fact fail to terminate,
which is settled below).  The external Zod validator consumed through the
registry is modelled as an abstract per-tag function on raw attribute maps.
-/

/-- ASCII case folding, modelling `String.prototype.toLowerCase` on the ASCII
inputs used throughout (code points 65–90 map to 97–122, all else fixed). -/
def lowerChar (c : Char) : Char :=
  if 65 ≤ c.toNat ∧ c.toNat ≤ 90 then Char.ofNat (c.toNat + 32) else c

/-- `toLowerCase` on a whole string. -/
def lowerStr (s : List Char) : List Char := s.map lowerChar

/-- The characters matched by the regex class `\s` (ASCII part). -/
def jsIsSpace (c : Char) : Bool :=
  c = ' ' || c = '\t' || c = '\n' || c = '\r' || c = Char.ofNat 11 || c = Char.ofNat 12

/-- The characters matched by the regex class `\w`: `[A-Za-z0-9_]`. -/
def wordChars : List Char :=
  ("ABCDEFGHIJKLMNOPQRSTUVWXYZabcdefghijklmnopqrstuvwxyz0123456789_").toList

/-- Membership in `\w`. -/
def isWordChar (c : Char) : Bool := wordChars.contains c

/-- The single-quote character (written via its code point). -/
def sqc : Char := Char.ofNat 39

/-- The double-quote character. -/
def dqc : Char := Char.ofNat 34

/-- JavaScript `s.slice(a, b)` for `0 ≤ a, b`. -/
def sliceJs (s : List Char) (a b : Nat) : List Char := (s.take b).drop a

/-- One global-replace pass `.replace(/&lt;/g, "<")`: leftmost, non-overlapping,
the replacement is not rescanned within the pass. -/
def passLt : List Char → List Char
  | '&' :: 'l' :: 't' :: ';' :: rest => '<' :: passLt rest
  | c :: rest => c :: passLt rest
  | [] => []

/-- The pass `.replace(/&gt;/g, ">")`. -/
def passGt : List Char → List Char
  | '&' :: 'g' :: 't' :: ';' :: rest => '>' :: passGt rest
  | c :: rest => c :: passGt rest
  | [] => []

/-- The pass `.replace(/&amp;/g, "&")`. -/
def passAmp : List Char → List Char
  | '&' :: 'a' :: 'm' :: 'p' :: ';' :: rest => '&' :: passAmp rest
  | c :: rest => c :: passAmp rest
  | [] => []

/-- The pass `.replace(/&quot;/g, "\"")`. -/
def passQuot : List Char → List Char
  | '&' :: 'q' :: 'u' :: 'o' :: 't' :: ';' :: rest => dqc :: passQuot rest
  | c :: rest => c :: passQuot rest
  | [] => []

/-- `decodeXmlEntities` from src/parser.ts: four sequential global replace
passes, in the source's order lt, gt, amp, quot. -/
def decodeXmlEntities (s : List Char) : List Char :=
  passQuot (passAmp (passGt (passLt s)))

/-- Modelled from the spec: the entity decoder as the claim states it — a
single left-to-right, non-recursive pass over the four entities, so that a
character produced by decoding one entity is never re-scanned as the start of
another entity.  Used only to compare the source decoder against the claim. -/
def specDecodeXmlEntities : List Char → List Char
  | '&' :: 'l' :: 't' :: ';' :: rest => '<' :: specDecodeXmlEntities rest
  | '&' :: 'g' :: 't' :: ';' :: rest => '>' :: specDecodeXmlEntities rest
  | '&' :: 'a' :: 'm' :: 'p' :: ';' :: rest => '&' :: specDecodeXmlEntities rest
  | '&' :: 'q' :: 'u' :: 'o' :: 't' :: ';' :: rest => dqc :: specDecodeXmlEntities rest
  | c :: rest => c :: specDecodeXmlEntities rest
  | [] => []

/-- Substring containment (used to state which inputs contain an entity). -/
def hasSub (pat : List Char) : List Char → Bool
  | [] => pat.isEmpty
  | c :: cs => pat.isPrefixOf (c :: cs) || hasSub pat cs

/-- JavaScript plain-object insert: overwrite in place if the key exists,
append otherwise (insertion order is preserved, as for JS object keys). -/
def assocSet : List (List Char × List Char) → List Char → List Char →
    List (List Char × List Char)
  | [], k, v => [(k, v)]
  | (k', v') :: rest, k, v =>
    if k' = k then (k, v) :: rest else (k', v') :: assocSet rest k v

/-- Key lookup in the attribute map. -/
def lookupA (k : List Char) : List (List Char × List Char) → Option (List Char)
  | [] => none
  | (k', v) :: rest => if k' = k then some v else lookupA k rest

/-- Maximal `\w+` run at the front of a string, with the rest. -/
def takeWordRun : List Char → List Char × List Char
  | [] => ([], [])
  | c :: cs =>
    if isWordChar c then
      let p := takeWordRun cs
      (c :: p.1, p.2)
    else ([], c :: cs)

/-- Scan a quoted value after its opening quote `q`: the characters up to the
next `q`, and the rest after that quote; `none` when `q` never occurs. -/
def scanQuoted (q : Char) : List Char → Option (List Char × List Char)
  | [] => none
  | c :: cs =>
    if c = q then some ([], cs)
    else (scanQuoted q cs).map (fun p => (c :: p.1, p.2))

/-- Try the attribute-pair regex `(\w+)=(?:"([^"]*)"|'([^']*)')` at the start
of `s`: key, raw value and the rest after the closing quote. -/
def tryPair (s : List Char) : Option (List Char × List Char × List Char) :=
  let w := (takeWordRun s).1
  if w.isEmpty then none
  else
    match (takeWordRun s).2 with
    | '=' :: q :: r' =>
      if q = dqc then (scanQuoted dqc r').map (fun p => (w, p.1, p.2))
      else if q = sqc then (scanQuoted sqc r').map (fun p => (w, p.1, p.2))
      else none
    | _ => none

/-- The `pattern.exec` loop of `parseAttributes`: all matches of the pair
regex, left to right, non-overlapping (scanning resumes after each match,
advancing one character past positions where no match starts).  Fuel-indexed;
`attrScan` below supplies always-sufficient fuel. -/
def attrScanF : Nat → List Char → Option (List (List Char × List Char))
  | _, [] => some []
  | 0, _ :: _ => none
  | fuel + 1, c :: cs =>
    match tryPair (c :: cs) with
    | some (k, v, rest) => (attrScanF fuel rest).map (fun l => (k, v) :: l)
    | none => attrScanF fuel cs

/-- The raw `key=value` matches occurring in `s`, in scan order. -/
def attrScan (s : List Char) : List (List Char × List Char) :=
  (attrScanF (s.length + 1) s).getD []

/-- `parseAttributes` from src/parser.ts: fold the scanned pairs into a JS
object, decoding each value; a later duplicate key overwrites the earlier. -/
def parseAttributes (s : List Char) : List (List Char × List Char) :=
  (attrScan s).foldl (fun m kv => assocSet m kv.1 (decodeXmlEntities kv.2)) []

/-- A captured opening-tag match: captured name text (original case), captured
raw attribute string (group 2, or empty when absent), whether group 3 captured
an explicit `/` marker, and the length of the whole match. -/
structure TagCap where
  name : List Char
  attrs : List Char
  slash : Bool
  len : Nat
deriving DecidableEq, Repr

/-- Index of the first `>` in a string. -/
def idxOfGt : List Char → Option Nat
  | [] => none
  | c :: cs => if c = '>' then some 0 else (idxOfGt cs).map (· + 1)

/-- Match `(\s+[^>]*)?(\/)?>` at the start of `t` with JavaScript greedy
backtracking: when `t` begins with whitespace the greedy `[^>]*` runs to just
before the first `>` (absorbing any `/`), so group 3 stays empty; otherwise
group 2 is empty and only `/>` or `>` can complete the match.  Returns the
group-2 capture, whether group 3 captured `/`, and the consumed length. -/
def matchTail (t : List Char) : Option (List Char × Bool × Nat) :=
  match t with
  | [] => none
  | c :: cs =>
    if jsIsSpace c then
      match idxOfGt (c :: cs) with
      | some k => some ((c :: cs).take k, false, k + 1)
      | none => none
    else if c = '>' then some ([], false, 1)
    else if c = '/' then
      match cs with
      | '>' :: _ => some ([], true, 2)
      | _ => none
    else none

/-- Case-insensitive prefix test: the pattern `pat` matches the front of the
text (the `i` flag of the source's patterns). -/
def matchesCI : List Char → List Char → Bool
  | [], _ => true
  | _ :: _, [] => false
  | a :: as, b :: bs => lowerChar a = lowerChar b && matchesCI as bs

/-- The alternation `(n1|n2|...)`: try each registered name in order at a
position just after `<`; on a name whose tail fails to match, backtrack to the
next alternative (JS alternation semantics). -/
def tryNames (names : List (List Char)) (rest : List Char) : Option TagCap :=
  match names with
  | [] => none
  | n :: ns =>
    if matchesCI n rest then
      match matchTail (rest.drop n.length) with
      | some (a, sl, tl) => some ⟨rest.take n.length, a, sl, 1 + n.length + tl⟩
      | none => tryNames ns rest
    else tryNames ns rest

/-- The opening-tag pattern `<(names)(\s+[^>]*)?(\/)?>` tried at one
position. -/
def matchTagAt (names : List (List Char)) : List Char → Option TagCap
  | [] => none
  | c :: rest => if c = '<' then tryNames names rest else none

/-- `remaining.match(openingTagPattern)`: the leftmost position at which the
opening-tag pattern matches, with the capture.  The source recovers the same
position via `indexOf(openMatch[0])`, since an earlier occurrence of the
matched text would itself have been an earlier match. -/
def findTagAux (names : List (List Char)) : List Char → Option (Nat × TagCap)
  | [] => none
  | c :: cs =>
    match matchTagAt names (c :: cs) with
    | some cap => some (0, cap)
    | none => (findTagAux names cs).map (fun p => (p.1 + 1, p.2))

/-- The name alternation actually compiled: an empty registry yields the
pattern `<()(\s+[^>]*)?(\/)?>`, whose name group matches the empty string. -/
def effNames (names : List (List Char)) : List (List Char) :=
  if names = [] then [[]] else names

/-- Search for the leftmost opening-tag match of a registry's pattern. -/
def findOpeningTag (names : List (List Char)) (s : List Char) : Option (Nat × TagCap) :=
  findTagAux (effNames names) s

/-- One tag definition of the registry, with the external Zod validator
abstracted as a function from the raw attribute map to `some` typed data
(success) or `none` (schema rejection). -/
structure TagDef where
  selfClosing : Bool
  hasContent : Bool
  validate : List (List Char × List Char) → Option (List (List Char × List Char))

/-- The registry collaborator: the ordered tag-name list (pattern alternation
order) and the per-name definitions keyed exactly as registered. -/
structure Registry where
  names : List (List Char)
  defs : List (List Char × TagDef)

/-- `frozenDefs[name]` (exact-key lookup). -/
def getTagDef (reg : Registry) : List Char → Option TagDef :=
  fun n => (reg.defs.find? (fun p => p.1 = n)).map (·.2)

/-- `registry.isSelfClosing`: `frozenDefs[name]?.selfClosing ?? false`. -/
def isSelfClosingR (reg : Registry) (n : List Char) : Bool :=
  ((getTagDef reg n).map (·.selfClosing)).getD false

/-- `registry.validateAttributes`: unknown tag is a failure, otherwise the
schema's safeParse, normalised to `Option`. -/
def validateAttributesR (reg : Registry) (n : List Char)
    (attrs : List (List Char × List Char)) : Option (List (List Char × List Char)) :=
  (getTagDef reg n).bind (fun d => d.validate attrs)

/-- A parsed segment: `type` is `"text"` or a lower-cased tag name, `content`
is the (decoded) content, and `attributes` is `none` exactly for text
segments. -/
structure Segment where
  type : List Char
  content : List Char
  attributes : Option (List (List Char × List Char))
deriving DecidableEq, Repr

/-- The literal segment type `"text"`. -/
def textType : List Char := ("text").toList

/-- `createSegment` from src/parser.ts: lower-case the name, parse the raw
attributes, validate them through the registry, and fall back to the raw map
on validation failure. -/
def createSegment (reg : Registry) (tagName attrString content : List Char) : Segment :=
  let rawAttrs := parseAttributes attrString
  let n := lowerStr tagName
  { type := n
    content := decodeXmlEntities content
    attributes := some ((validateAttributesR reg n rawAttrs).getD rawAttrs) }

/-- A text segment with decoded content (the push of `addTextSegment`). -/
def mkText (s : List Char) : Segment := ⟨textType, decodeXmlEntities s, none⟩

/-- `addTextSegment`: push a text segment only when the text is non-empty. -/
def flushText (tb : List Char) : List Segment := if tb = [] then [] else [mkText tb]

/-- The closing-tag pattern text `</name>` built for a (lower-cased) name. -/
def closePat (tagName : List Char) : List Char := '<' :: '/' :: (tagName ++ ['>'])

/-- `remaining.match(closingTagPattern)` and `indexOf` of its match: the first
index at which `</name>` occurs case-insensitively. -/
def findCloseAux (pat : List Char) : List Char → Option Nat
  | [] => none
  | c :: cs => if matchesCI pat (c :: cs) then some 0 else (findCloseAux pat cs).map (· + 1)

/-- The `while` loop of `parse` (src/parser.ts lines 173–239), fuel-indexed.
Each branch mirrors one branch of the source loop body; the accumulated
`segments` and the pending `textBuffer` are threaded explicitly. -/
def parseLoopF (reg : Registry) :
    Nat → List Char → List Char → List Segment → Option (List Segment)
  | 0, remaining, textBuffer, segments =>
    if remaining = [] then some (segments ++ flushText textBuffer) else none
  | fuel + 1, remaining, textBuffer, segments =>
    if remaining = [] then some (segments ++ flushText textBuffer)
    else
      match findOpeningTag reg.names remaining with
        | none => parseLoopF reg fuel [] (textBuffer ++ remaining) segments
        | some (p, cap) =>
          if p > 0 then
            parseLoopF reg fuel (remaining.drop p) (textBuffer ++ remaining.take p) segments
          else
            let tagName := lowerStr cap.name
            if cap.slash || isSelfClosingR reg tagName then
              parseLoopF reg fuel (remaining.drop cap.len) []
                (segments ++ flushText textBuffer ++ [createSegment reg tagName cap.attrs []])
            else
              match findCloseAux (closePat tagName) remaining with
              | some q =>
                parseLoopF reg fuel (remaining.drop (q + tagName.length + 3)) []
                  (segments ++ flushText textBuffer ++
                    [createSegment reg tagName cap.attrs (sliceJs remaining cap.len q)])
              | none =>
                parseLoopF reg fuel (remaining.drop cap.len)
                  (textBuffer ++ remaining.take cap.len) segments

/-- `parse` from src/parser.ts.  Every loop iteration strictly shortens
`remaining` (proved in `parseLoopF_isSome`), so fuel `length + 1` always
suffices and the `getD` default is never taken. -/
def parse (reg : Registry) (s : List Char) : List Segment :=
  (parseLoopF reg (s.length + 1) s [] []).getD []

/-- The streaming parser state (`ParserState` of src/types.ts). -/
structure PState where
  buffer : List Char
  inComponent : Bool
  currentTag : Option (List Char)
  currentAttrs : List Char
  tagStartIndex : Nat
deriving DecidableEq, Repr

/-- `createState` from src/parser.ts. -/
def createState : PState :=
  { buffer := [], inComponent := false, currentTag := none
    currentAttrs := [], tagStartIndex := 0 }

/-- The result record of `parseChunk` (`StreamingParseResult`), with the
in-progress preview segment carried as an `Option`. -/
structure StreamResult where
  segments : List Segment
  state : PState
  isBuffering : Bool
  bufferingTag : Option (List Char)
  preview : Option Segment
deriving DecidableEq, Repr

/-- JavaScript truthiness of `newState.inComponent && newState.currentTag`
(an empty-string tag name is falsy). -/
def inComponentTruthy (st : PState) : Bool :=
  st.inComponent && (match st.currentTag with
    | some t => !t.isEmpty
    | none => false)

/-- `MAX_INCOMPLETE_TAG_LENGTH` from src/parser.ts. -/
def maxIncompleteTagLength : Nat := 20

/-- `remaining.lastIndexOf("<")`. -/
def lastIdxOfLt : List Char → Option Nat
  | [] => none
  | c :: cs =>
    match lastIdxOfLt cs with
    | some k => some (k + 1)
    | none => if c = '<' then some 0 else none

/-- `remaining.endsWith("<")`. -/
def endsWithLt (s : List Char) : Bool := s.getLast? = some '<'

/-- The test `/^<[^>]*$/.test(remaining)`. -/
def onlyIncompleteTag : List Char → Bool
  | '<' :: rest => rest.all (fun c => !(c = '>'))
  | _ => false

/-- The values returned by one successful `processOpenTag` step: the new scan
position, text buffer, `processedUpTo`, the (possibly) updated state fields
and the segment list after any pushes. -/
structure OpenTagStep where
  remaining : List Char
  textBuffer : List Char
  processedUpTo : Nat
  state : PState
  segments : List Segment
deriving Repr

/-- `processOpenTag` from src/parser.ts (lines 309–398).  `none` models the
`return null` on a possibly-incomplete tag at the buffer end (the caller then
breaks out of its loop).  The `q > length - 20` comparison is over integers,
as in JavaScript, so it also holds when `length < 20`. -/
def processOpenTag (reg : Registry) (remaining : List Char) (st : PState)
    (segments : List Segment) (textBuffer : List Char)
    (processedUpTo bufferLength : Nat) : Option OpenTagStep :=
  match findOpeningTag reg.names remaining with
  | some (p, cap) =>
    if p > 0 then
      some ⟨remaining.drop p, textBuffer ++ remaining.take p, processedUpTo, st, segments⟩
    else if endsWithLt remaining || onlyIncompleteTag remaining then
      none
    else
      let tagName := lowerStr cap.name
      if cap.slash || isSelfClosingR reg tagName then
        let afterTag := remaining.drop cap.len
        some ⟨afterTag, [], bufferLength - afterTag.length, st,
          segments ++ flushText textBuffer ++ [createSegment reg tagName cap.attrs []]⟩
      else
        let afterTag := remaining.drop cap.len
        some ⟨afterTag, [], bufferLength - afterTag.length,
          { st with
              inComponent := true
              currentTag := some tagName
              currentAttrs := cap.attrs
              tagStartIndex := processedUpTo },
          segments ++ flushText textBuffer⟩
  | none =>
    match lastIdxOfLt remaining with
    | some q =>
      if (q : Int) > (remaining.length : Int) - (maxIncompleteTagLength : Int) then
        some ⟨remaining.drop q, textBuffer ++ remaining.take q,
          bufferLength - (remaining.length - q), st, segments⟩
      else
        some ⟨[], textBuffer ++ remaining, bufferLength, st, segments⟩
    | none => some ⟨[], textBuffer ++ remaining, bufferLength, st, segments⟩

/-- `processInsideComponent` from src/parser.ts: search for the recorded
closing tag; on success return the rest after it together with the completed
segment, `none` while still waiting. -/
def processInsideComponent (reg : Registry) (remaining tag attrs : List Char) :
    Option (List Char × Segment) :=
  match findCloseAux (closePat tag) remaining with
  | some q =>
    some (remaining.drop (q + tag.length + 3),
      createSegment reg tag attrs (remaining.take q))
  | none => none

/-- The values live at the exit of the `parseChunk` loop. -/
structure LoopOut where
  remaining : List Char
  textBuffer : List Char
  state : PState
  segments : List Segment
deriving Repr

/-- The `while` loop of `parseChunk` (src/parser.ts lines 415–440),
fuel-indexed: one fuel unit per iteration on a non-empty `remaining`;
`none` when the fuel runs out before the loop exits or breaks. -/
def pcLoopF (reg : Registry) (bufferLength : Nat) :
    Nat → List Char → List Char → Nat → PState → List Segment → Option LoopOut
  | 0, remaining, textBuffer, _, st, segments =>
    if remaining = [] then some ⟨remaining, textBuffer, st, segments⟩ else none
  | fuel + 1, remaining, textBuffer, processedUpTo, st, segments =>
    if remaining = [] then some ⟨remaining, textBuffer, st, segments⟩
    else
        if inComponentTruthy st then
          match st.currentTag with
          | some t =>
            match processInsideComponent reg remaining t st.currentAttrs with
            | some (after, seg) =>
              pcLoopF reg bufferLength fuel after textBuffer
                (bufferLength - after.length)
                { st with inComponent := false, currentTag := none, currentAttrs := [] }
                (segments ++ [seg])
            | none => some ⟨remaining, textBuffer, st, segments⟩
          | none => some ⟨remaining, textBuffer, st, segments⟩
        else
          match processOpenTag reg remaining st segments textBuffer processedUpTo
              bufferLength with
          | some step =>
            pcLoopF reg bufferLength fuel step.remaining step.textBuffer
              step.processedUpTo step.state step.segments
          | none => some ⟨remaining, textBuffer, st, segments⟩

/-- `parseChunk` from src/parser.ts, fuel-indexed through its loop: append
the chunk to the buffer, run the loop, flush trailing text when not inside a
component, keep the unprocessed rest as the new buffer, and build the
in-progress preview segment while inside an open tag. -/
def parseChunkF (reg : Registry) (fuel : Nat) (chunk : List Char) (state : PState) :
    Option StreamResult :=
  let buf := state.buffer ++ chunk
  let st0 : PState := { state with buffer := buf }
  match pcLoopF reg buf.length fuel buf [] 0 st0 [] with
  | none => none
  | some out =>
    let flushNow := !out.state.inComponent && !out.textBuffer.isEmpty
    let segments := if flushNow then out.segments ++ [mkText out.textBuffer] else out.segments
    let textBuffer := if flushNow then [] else out.textBuffer
    let st1 : PState := { out.state with buffer := out.remaining ++ textBuffer }
    let preview : Option Segment :=
      if inComponentTruthy st1 then
        match st1.currentTag with
        | some t =>
          let rawAttrs := parseAttributes st1.currentAttrs
          some ⟨lowerStr t, decodeXmlEntities out.remaining,
            some ((validateAttributesR reg (lowerStr t) rawAttrs).getD rawAttrs)⟩
        | none => none
      else none
    some
      { segments := segments
        state := st1
        isBuffering := st1.inComponent || !st1.buffer.isEmpty
        bufferingTag := if st1.inComponent then st1.currentTag else none
        preview := preview }

/-- `finalize` from src/parser.ts: the remaining buffer, if any, as one text
segment. -/
def finalize (st : PState) : List Segment :=
  if st.buffer = [] then [] else [mkText st.buffer]

/-- Run a whole chunk sequence from `createState` through `parseChunk` calls
and `finalize`, concatenating the emitted segments; `none` if some call's
loop fuel ran out. -/
def streamGo (reg : Registry) (fuel : Nat) :
    List (List Char) → PState → List Segment → Option (List Segment)
  | [], st, acc => some (acc ++ finalize st)
  | c :: cs, st, acc =>
    match parseChunkF reg fuel c st with
    | none => none
    | some res => streamGo reg fuel cs res.state (acc ++ res.segments)

/-- The full streaming pipeline `createState → parseChunk* → finalize`. -/
def streamAll (reg : Registry) (fuel : Nat) (chunks : List (List Char)) :
    Option (List Segment) :=
  streamGo reg fuel chunks createState []

/-- The attribute validator of the documentation's `callout` example tag,
`z.object({ type: z.enum(['info', 'warning', 'error']) })`: success exactly
on a present `type` key with one of the three values; Zod strips unknown
keys from the returned data. -/
def valCallout (attrs : List (List Char × List Char)) :
    Option (List (List Char × List Char)) :=
  match lookupA (("type").toList) attrs with
  | some v =>
    if v = ("info").toList ∨ v = ("warning").toList ∨ v = ("error").toList then
      some [(("type").toList, v)]
    else none
  | none => none

/-- The attribute validator of the documentation's `image` example tag,
`z.object({ src: z.string() })`: success exactly on a present `src` key. -/
def valImage (attrs : List (List Char × List Char)) :
    Option (List (List Char × List Char)) :=
  (lookupA (("src").toList) attrs).map (fun v => [(("src").toList, v)])

/-- The documentation's example registry: a content-bearing `callout` tag
and a self-closing `image` tag. -/
def R0 : Registry :=
  { names := [("callout").toList, ("image").toList]
    defs := [(("callout").toList, ⟨false, true, valCallout⟩),
             (("image").toList, ⟨true, false, valImage⟩)] }

/-- A registry that registers a self-closing tag literally named `text`
(legal for `createRegistry`, whose definitions are an arbitrary record). -/
def Rtext : Registry :=
  { names := [textType], defs := [(textType, ⟨true, false, fun a => some a⟩)] }

/-- Lower-case the attribute keys of a segment (used to compare segments up
to key case). -/
def segLowerKeys (g : Segment) : Segment :=
  { g with attributes := g.attributes.map (List.map (fun p => (lowerStr p.1, p.2))) }

/-- No segment in the list is a text segment with empty content. -/
abbrev noEmptyText (l : List Segment) : Prop :=
  ∀ g ∈ l, g.type = textType → g.content ≠ []

/-- No registered tag name lower-cases to `text`. -/
abbrev noTextTag (reg : Registry) : Prop :=
  ∀ n ∈ reg.names, lowerStr n ≠ textType

/-- The state's recorded open tag, if any, does not lower-case to `text`. -/
abbrev stateOK (st : PState) : Prop :=
  ∀ t, st.currentTag = some t → lowerStr t ≠ textType

/-- The string contains none of the four entity spellings. -/
abbrev noEntities (s : List Char) : Prop :=
  hasSub (("&lt;").toList) s = false ∧ hasSub (("&gt;").toList) s = false ∧
  hasSub (("&amp;").toList) s = false ∧ hasSub (("&quot;").toList) s = false

/-- Keep the first occurrence of each element (JS object key order under
repeated insertion). -/
def dedupFirst : List (List Char) → List (List Char)
  | [] => []
  | k :: rest => k :: (dedupFirst rest).filter (fun x => ¬(x = k))

/-- The value of the last pair with a given key, scanning left to right. -/
def lastVal (k : List Char) : List (List Char × List Char) → Option (List Char)
  | [] => none
  | (k', v) :: rest =>
    match lastVal k rest with
    | some w => some w
    | none => if k' = k then some v else none

/-- The chunk split used to test chunk invariance on plain text. -/
def chunksC1 : List (List Char) := [("ab").toList, ("cd").toList]

/-! ## Helper lemmas -/

theorem matchTagAt_ne_lt {names : List (List Char)} {c : Char} {cs : List Char}
    (h : ¬c = '<') : matchTagAt names (c :: cs) = none := by
  simp [matchTagAt, h]

theorem parseLoopF_zero (reg : Registry) (r tb : List Char) (segs : List Segment) :
    parseLoopF reg 0 r tb segs =
      (if r = [] then some (segs ++ flushText tb) else none) := rfl

theorem parseLoopF_nil (reg : Registry) (fuel : Nat) (tb : List Char)
    (segs : List Segment) :
    parseLoopF reg fuel [] tb segs = some (segs ++ flushText tb) := by
  cases fuel <;> rfl

theorem parseLoopF_succ (reg : Registry) (fuel : Nat) (r tb : List Char)
    (segs : List Segment) :
    parseLoopF reg (fuel + 1) r tb segs =
      (if r = [] then some (segs ++ flushText tb)
       else
        match findOpeningTag reg.names r with
        | none => parseLoopF reg fuel [] (tb ++ r) segs
        | some (p, cap) =>
          if p > 0 then
            parseLoopF reg fuel (r.drop p) (tb ++ r.take p) segs
          else
            let tagName := lowerStr cap.name
            if cap.slash || isSelfClosingR reg tagName then
              parseLoopF reg fuel (r.drop cap.len) []
                (segs ++ flushText tb ++ [createSegment reg tagName cap.attrs []])
            else
              match findCloseAux (closePat tagName) r with
              | some q =>
                parseLoopF reg fuel (r.drop (q + tagName.length + 3)) []
                  (segs ++ flushText tb ++
                    [createSegment reg tagName cap.attrs (sliceJs r cap.len q)])
              | none =>
                parseLoopF reg fuel (r.drop cap.len) (tb ++ r.take cap.len) segs) := rfl

theorem pcLoopF_zero (reg : Registry) (bl : Nat) (r tb : List Char) (pu : Nat)
    (st : PState) (segs : List Segment) :
    pcLoopF reg bl 0 r tb pu st segs =
      (if r = [] then some ⟨r, tb, st, segs⟩ else none) := rfl

theorem pcLoopF_nil (reg : Registry) (bl fuel : Nat) (tb : List Char) (pu : Nat)
    (st : PState) (segs : List Segment) :
    pcLoopF reg bl fuel [] tb pu st segs = some ⟨[], tb, st, segs⟩ := by
  cases fuel <;> rfl

theorem pcLoopF_succ (reg : Registry) (bl fuel : Nat) (r tb : List Char) (pu : Nat)
    (st : PState) (segs : List Segment) :
    pcLoopF reg bl (fuel + 1) r tb pu st segs =
      (if r = [] then some ⟨r, tb, st, segs⟩
       else
        if inComponentTruthy st then
          match st.currentTag with
          | some t =>
            match processInsideComponent reg r t st.currentAttrs with
            | some (after, seg) =>
              pcLoopF reg bl fuel after tb (bl - after.length)
                { st with inComponent := false, currentTag := none, currentAttrs := [] }
                (segs ++ [seg])
            | none => some ⟨r, tb, st, segs⟩
          | none => some ⟨r, tb, st, segs⟩
        else
          match processOpenTag reg r st segs tb pu bl with
          | some step =>
            pcLoopF reg bl fuel step.remaining step.textBuffer
              step.processedUpTo step.state step.segments
          | none => some ⟨r, tb, st, segs⟩) := rfl

theorem findTagAux_none_of_no_lt {names : List (List Char)} :
    ∀ {s : List Char}, '<' ∉ s → findTagAux names s = none := by
  intro s
  induction s with
  | nil => intro _; rfl
  | cons c cs ih =>
    intro h
    have hc : ¬c = '<' := fun hh => h (by simp [hh])
    have hcs : '<' ∉ cs := fun hh => h (List.mem_cons_of_mem _ hh)
    rw [findTagAux]
    rw [matchTagAt_ne_lt hc, ih hcs]
    rfl

theorem findOpeningTag_none_of_no_lt {names : List (List Char)} {s : List Char}
    (h : '<' ∉ s) : findOpeningTag names s = none :=
  findTagAux_none_of_no_lt h

theorem lastIdxOfLt_none_of_no_lt :
    ∀ {s : List Char}, '<' ∉ s → lastIdxOfLt s = none := by
  intro s
  induction s with
  | nil => intro _; rfl
  | cons c cs ih =>
    intro h
    have hc : ¬c = '<' := fun hh => h (by simp [hh])
    have hcs : '<' ∉ cs := fun hh => h (List.mem_cons_of_mem _ hh)
    rw [lastIdxOfLt, ih hcs]
    simp [hc]

theorem parse_nil (reg : Registry) : parse reg [] = [] := rfl

theorem parse_no_tag {reg : Registry} {s : List Char}
    (hmatch : findOpeningTag reg.names s = none) (hne : s ≠ []) :
    parse reg s = [mkText s] := by
  unfold parse
  rw [parseLoopF_succ]
  simp only [if_neg hne, hmatch]
  rw [parseLoopF_nil]
  simp [flushText, hne]

theorem processOpenTag_hello_tail (bl : Nat) (st : PState) (segs : List Segment)
    (tb : List Char) (pu : Nat) :
    processOpenTag R0 ['<', 'c', 'a', 'l', 'l'] st segs tb pu bl =
      some ⟨['<', 'c', 'a', 'l', 'l'], tb, bl - 5, st, segs⟩ := by
  have hf : findOpeningTag R0.names ['<', 'c', 'a', 'l', 'l'] = none := by decide
  have hl : lastIdxOfLt ['<', 'c', 'a', 'l', 'l'] = some 0 := by decide
  simp [processOpenTag, hf, hl, maxIncompleteTagLength]

theorem pcLoop_stuck_hello (bl : Nat) :
    ∀ (fuel : Nat) (tb : List Char) (pu : Nat) (st : PState) (segs : List Segment),
      st.inComponent = false →
      pcLoopF R0 bl fuel ['<', 'c', 'a', 'l', 'l'] tb pu st segs = none := by
  intro fuel
  induction fuel with
  | zero =>
    intro tb pu st segs h
    rw [pcLoopF_zero]
    simp
  | succ f ih =>
    intro tb pu st segs h
    have hic : inComponentTruthy st = false := by simp [inComponentTruthy, h]
    rw [pcLoopF_succ]
    simp only [hic, processOpenTag_hello_tail, List.cons_ne_nil, if_neg, reduceIte,
      Bool.false_eq_true]
    exact ih tb (bl - 5) st segs h

/-- C2: contrary to the claim, `parseChunk` does not terminate on the spec's
own first streaming chunk.  On the registry of the documentation, feeding the
chunk `"Hello <call"` to a fresh state drives the processing loop into a state
with buffer tail `"<call"` that `processOpenTag` returns unchanged, so the
loop never exits: for every fuel bound the embedded loop fails to finish. -/
theorem C2_parseChunk_diverges :
    ∀ fuel : Nat, parseChunkF R0 fuel (("Hello <call").toList) createState = none := by
  intro fuel
  have hloop : pcLoopF R0 11 fuel
      ['H', 'e', 'l', 'l', 'o', ' ', '<', 'c', 'a', 'l', 'l'] [] 0
      ⟨['H', 'e', 'l', 'l', 'o', ' ', '<', 'c', 'a', 'l', 'l'], false, none, [], 0⟩ [] =
      none := by
    cases fuel with
    | zero => rw [pcLoopF_zero]; simp
    | succ f =>
      have hf : findOpeningTag R0.names
          ['H', 'e', 'l', 'l', 'o', ' ', '<', 'c', 'a', 'l', 'l'] = none := by decide
      have hl : lastIdxOfLt ['H', 'e', 'l', 'l', 'o', ' ', '<', 'c', 'a', 'l', 'l'] =
          some 6 := by decide
      rw [pcLoopF_succ]
      have hic : inComponentTruthy
          ⟨['H', 'e', 'l', 'l', 'o', ' ', '<', 'c', 'a', 'l', 'l'],
            false, none, [], 0⟩ = false := by decide
      simp only [hic, List.cons_ne_nil, if_neg, reduceIte, Bool.false_eq_true,
        processOpenTag, hf, hl, maxIncompleteTagLength]
      norm_num
      exact pcLoop_stuck_hello 11 f _ _ _ _ rfl
  simp only [parseChunkF, createState]
  norm_num
  simp [hloop]

/-- C1 (counterexample): chunk invariance fails already on plain text.  The
split `["ab", "cd"]` streams into two text segments while `parse "abcd"`
returns a single text segment, so the streamed sequence is not the
whole-string sequence. -/
theorem C1_counterexample :
    streamAll R0 20 chunksC1 =
        some [⟨textType, ("ab").toList, none⟩, ⟨textType, ("cd").toList, none⟩] ∧
      parse R0 (("abcd").toList) = [⟨textType, ("abcd").toList, none⟩] ∧
      streamAll R0 20 chunksC1 ≠ some (parse R0 (("abcd").toList)) := by
  refine ⟨by decide, by decide, by decide⟩

/-- C3 (counterexample): a tag written with an explicit `/>` marker after an
attribute string is not treated as self-closing when the registry declares it
content-bearing: the greedy `[^>]*` of the compiled pattern absorbs the `/`,
no closing tag exists, and the whole input falls back to one text segment
instead of a zero-content `callout` segment. -/
theorem C3_counterexample :
    parse R0 (("<callout type=\"info\"/>").toList) =
        [⟨textType, ("<callout type=\"info\"/>").toList, none⟩] ∧
      parse R0 (("<callout type=\"info\"/>").toList) ≠
        [⟨("callout").toList, [], some [(("type").toList, ("info").toList)]⟩] := by
  refine ⟨by decide, by decide⟩

/-- C3 (amended): an explicit `/>` marker makes a registered tag self-closing
only when no attribute string precedes it (`<callout/>` is emitted
immediately as a zero-content segment even though `callout` is
content-bearing); with attributes present the `/` is absorbed into the raw
attribute string and only the registry flag decides (`<image src="a"/>` is
self-closing because `image` is declared so); and a registry-declared
self-closing name written without `/>` is still self-closing (`<image>`). -/
theorem C3_self_closing_rules :
    parse R0 (("<callout/>").toList) = [⟨("callout").toList, [], some []⟩] ∧
      parse R0 (("<callout/>x").toList) =
        [⟨("callout").toList, [], some []⟩, ⟨textType, ("x").toList, none⟩] ∧
      parse R0 (("<image src=\"a\"/>").toList) =
        [⟨("image").toList, [], some [(("src").toList, ("a").toList)]⟩] ∧
      parse R0 (("<image>").toList) = [⟨("image").toList, [], some []⟩] := by
  refine ⟨by decide, by decide, by decide, by decide⟩

/-- C4 (counterexample): the decoder is not a single non-recursive
left-to-right pass.  Because the four global passes run sequentially in the
order lt, gt, amp, quot, the `&` produced by decoding `&amp;` is re-scanned
by the later quot pass: `&amp;quot;` decodes to `"`, where the single-pass
decoder of the claim leaves `&quot;`. -/
theorem C4_counterexample :
    decodeXmlEntities (("&amp;quot;").toList) = [dqc] ∧
      specDecodeXmlEntities (("&amp;quot;").toList) = ("&quot;").toList ∧
      decodeXmlEntities (("&amp;quot;").toList) ≠
        specDecodeXmlEntities (("&amp;quot;").toList) := by
  refine ⟨by decide, by decide, by decide⟩

/-- C5 (counterexample): differently-cased spellings do not give identical
segments, because attribute keys keep their spelled case and the schema
validation then differs: `<IMAGE SRC="a.png"/>` carries `SRC` (raw fallback)
while `<image src="a.png" />` carries `src` (validated). -/
theorem C5_counterexample :
    parse R0 (("<IMAGE SRC=\"a.png\"/>").toList) ≠
      parse R0 (("<image src=\"a.png\" />").toList) := by decide

/-- C5 (amended): the two spellings produce segment lists that are identical
up to the letter case of attribute keys — in particular the same segment
types and the same contents. -/
theorem C5_equal_up_to_key_case :
    (parse R0 (("<IMAGE SRC=\"a.png\"/>").toList)).map segLowerKeys =
        (parse R0 (("<image src=\"a.png\" />").toList)).map segLowerKeys ∧
      (parse R0 (("<IMAGE SRC=\"a.png\"/>").toList)).map Segment.type =
        (parse R0 (("<image src=\"a.png\" />").toList)).map Segment.type ∧
      (parse R0 (("<IMAGE SRC=\"a.png\"/>").toList)).map Segment.content =
        (parse R0 (("<image src=\"a.png\" />").toList)).map Segment.content := by
  refine ⟨by decide, by decide, by decide⟩

/-- C10 (counterexample): with a registry that registers a self-closing tag
literally named `text`, `parse "<text/>"` emits a segment whose type is
`text` and whose content is empty, so the parser can emit an empty
`text`-typed segment. -/
theorem C10_counterexample :
    parse Rtext (("<text/>").toList) = [⟨textType, [], some []⟩] := by decide

theorem passLt_id : ∀ {s : List Char}, hasSub (("&lt;").toList) s = false →
    passLt s = s := by
  intro s
  induction s using passLt.induct with
  | case1 rest ih =>
    intro h
    exfalso
    rw [hasSub] at h
    simp [List.isPrefixOf] at h
  | case2 c rest hne ih =>
    intro h
    rw [hasSub, Bool.or_eq_false_iff] at h
    rw [passLt.eq_2 c rest hne, ih h.2]
  | case3 => intro _; rfl

theorem passGt_id : ∀ {s : List Char}, hasSub (("&gt;").toList) s = false →
    passGt s = s := by
  intro s
  induction s using passGt.induct with
  | case1 rest ih =>
    intro h
    exfalso
    rw [hasSub] at h
    simp [List.isPrefixOf] at h
  | case2 c rest hne ih =>
    intro h
    rw [hasSub, Bool.or_eq_false_iff] at h
    rw [passGt.eq_2 c rest hne, ih h.2]
  | case3 => intro _; rfl

theorem passAmp_id : ∀ {s : List Char}, hasSub (("&amp;").toList) s = false →
    passAmp s = s := by
  intro s
  induction s using passAmp.induct with
  | case1 rest ih =>
    intro h
    exfalso
    rw [hasSub] at h
    simp [List.isPrefixOf] at h
  | case2 c rest hne ih =>
    intro h
    rw [hasSub, Bool.or_eq_false_iff] at h
    rw [passAmp.eq_2 c rest hne, ih h.2]
  | case3 => intro _; rfl

theorem passQuot_id : ∀ {s : List Char}, hasSub (("&quot;").toList) s = false →
    passQuot s = s := by
  intro s
  induction s using passQuot.induct with
  | case1 rest ih =>
    intro h
    exfalso
    rw [hasSub] at h
    simp [List.isPrefixOf] at h
  | case2 c rest hne ih =>
    intro h
    rw [hasSub, Bool.or_eq_false_iff] at h
    rw [passQuot.eq_2 c rest hne, ih h.2]
  | case3 => intro _; rfl

/-- C4 (amended): the decoder is four sequential global passes in the order
lt, gt, amp, quot.  Any string containing none of the four entity spellings
passes through unchanged (so `&apos;` and numeric references are untouched,
and the operation is pure and total); each entity decodes to its character;
the `&` produced by the amp pass is never re-read as `&lt;`, `&gt;` or
`&amp;` (those passes already ran), but it is re-scanned by the final quot
pass, so `&amp;quot;` decodes to `"`. -/
theorem C4_decoder :
    (∀ s : List Char, noEntities s → decodeXmlEntities s = s) ∧
      decodeXmlEntities (("&lt;&gt;&amp;&quot;").toList) =
        ('<' :: '>' :: '&' :: [dqc]) ∧
      decodeXmlEntities (("&apos;&#60;").toList) = ("&apos;&#60;").toList ∧
      decodeXmlEntities (("&amp;lt;").toList) = ("&lt;").toList ∧
      decodeXmlEntities (("&amp;gt;").toList) = ("&gt;").toList ∧
      decodeXmlEntities (("&amp;amp;").toList) = ("&amp;").toList ∧
      decodeXmlEntities (("&amp;quot;").toList) = [dqc] := by
  refine ⟨?_, by decide, by decide, by decide, by decide, by decide, by decide⟩
  intro s h
  obtain ⟨h1, h2, h3, h4⟩ := h
  unfold decodeXmlEntities
  rw [passLt_id h1, passGt_id h2, passAmp_id h3, passQuot_id h4]

/-- Witness for C4: a concrete entity-free string is left unchanged. -/
theorem C4_decoder_witness :
    noEntities (("plain & text < here").toList) ∧
      decodeXmlEntities (("plain & text < here").toList) =
        ("plain & text < here").toList :=
  ⟨by decide, C4_decoder.1 _ (by decide)⟩

/-- C7: a matched content-bearing opening tag with no matching closing tag is
itself turned into literal text and scanning resumes immediately after it,
with no error: concretely, `parse` on the spec's example returns the entire
input as one text segment; in general, one loop step of the parse engine in
exactly this situation appends the matched opening-tag text to the text
buffer and continues after it, never retrying it as a tag. -/
theorem C7_unclosed_tag_fallback :
    parse R0 (("Hi <callout type=\"info\">oops").toList) =
        [⟨textType, ("Hi <callout type=\"info\">oops").toList, none⟩] ∧
      ∀ (reg : Registry) (fuel : Nat) (rem tb : List Char) (segs : List Segment)
        (cap : TagCap),
        findOpeningTag reg.names rem = some (0, cap) →
        (cap.slash || isSelfClosingR reg (lowerStr cap.name)) = false →
        findCloseAux (closePat (lowerStr cap.name)) rem = none →
        rem ≠ [] →
        parseLoopF reg (fuel + 1) rem tb segs =
          parseLoopF reg fuel (rem.drop cap.len) (tb ++ rem.take cap.len) segs := by
  constructor
  · decide
  · intro reg fuel rem tb segs cap hm hsc hcl hne
    rw [parseLoopF_succ]
    simp only [if_neg hne, hm, hsc, hcl, Nat.lt_irrefl, Bool.false_eq_true, if_false]

/-- Witness for C7: the loop step at the unclosed `<callout type="info">` of
the example input. -/
theorem C7_unclosed_tag_fallback_witness :
    parseLoopF R0 4 (("<callout type=\"info\">oops").toList) (("Hi ").toList) [] =
      parseLoopF R0 3 ((("<callout type=\"info\">oops").toList).drop 21)
        ((("Hi ").toList) ++ (("<callout type=\"info\">oops").toList).take 21) [] :=
  C7_unclosed_tag_fallback.2 R0 3 _ _ []
    ⟨("callout").toList, (" type=\"info\"").toList, false, 21⟩
    (by decide) (by decide) (by decide) (by decide)

/-- C9: when attribute validation rejects, the segment is still created with
the recognized lower-cased type and exactly the raw attribute map, and
parsing proceeds: in general `createSegment` returns the raw map whenever
`validateAttributes` fails, and concretely `parse` on a `callout` whose
`type` value the schema rejects still emits the `callout` segment with the
raw string attributes. -/
theorem C9_validation_failure_raw_attrs :
    (∀ (reg : Registry) (tagName attrString content : List Char),
        validateAttributesR reg (lowerStr tagName) (parseAttributes attrString) = none →
        createSegment reg tagName attrString content =
          ⟨lowerStr tagName, decodeXmlEntities content,
            some (parseAttributes attrString)⟩) ∧
      parse R0 (("<callout type=\"x\">hi</callout>").toList) =
        [⟨("callout").toList, ("hi").toList,
          some [(("type").toList, ("x").toList)]⟩] := by
  constructor
  · intro reg tagName attrString content h
    simp [createSegment, h]
  · decide

/-- Witness for C9: the schema of `callout` rejects `type="x"` and the
created segment carries the raw map. -/
theorem C9_validation_failure_raw_attrs_witness :
    validateAttributesR R0 (lowerStr (("callout").toList))
        (parseAttributes ((" type=\"x\"").toList)) = none ∧
      createSegment R0 (("callout").toList) ((" type=\"x\"").toList) (("hi").toList) =
        ⟨lowerStr (("callout").toList), decodeXmlEntities (("hi").toList),
          some (parseAttributes ((" type=\"x\"").toList))⟩ :=
  ⟨by decide, C9_validation_failure_raw_attrs.1 R0 _ _ _ (by decide)⟩

theorem mem_wordChars_of_isWordChar {c : Char} (h : isWordChar c = true) :
    c ∈ wordChars := by
  rw [isWordChar] at h
  exact List.elem_iff.mp h

theorem word_lower_ne_gt {c : Char} (h : isWordChar c = true) : ¬lowerChar c = '>' := by
  have hall : ∀ x ∈ wordChars, ¬lowerChar x = '>' := by decide
  exact hall c (mem_wordChars_of_isWordChar h)

theorem word_lower_ne_slash {c : Char} (h : isWordChar c = true) :
    ¬lowerChar c = '/' := by
  have hall : ∀ x ∈ wordChars, ¬lowerChar x = '/' := by decide
  exact hall c (mem_wordChars_of_isWordChar h)

theorem matchTagAt_lt (names : List (List Char)) (rest : List Char) :
    matchTagAt names ('<' :: rest) = tryNames names rest := by
  simp [matchTagAt]

theorem matchesCI_cons {a b : Char} {as bs : List Char}
    (h : matchesCI (a :: as) (b :: bs) = true) :
    lowerChar a = lowerChar b ∧ matchesCI as bs = true := by
  simpa [matchesCI, Bool.and_eq_true, decide_eq_true_eq] using h

/-- A registered tag name that can never capture at an unregistered `foo`
occurrence: non-empty, made of `\w` characters, and not spelling `foo`. -/
abbrev plainTagName (n : List Char) : Prop :=
  n ≠ [] ∧ (∀ c ∈ n, isWordChar c = true) ∧ lowerStr n ≠ ("foo").toList

theorem tryNames_foo_none :
    ∀ names : List (List Char), (∀ n ∈ names, plainTagName n) →
      tryNames names ['f', 'o', 'o', '>', 'b', '<', '/', 'f', 'o', 'o', '>', ' ', 'c'] =
        none := by
  intro names
  induction names with
  | nil => intro _; rfl
  | cons n ns ih =>
    intro h
    obtain ⟨hne, hw, hfoo⟩ := h n (by simp)
    have hns : ∀ m ∈ ns, plainTagName m := fun m hm => h m (by simp [hm])
    rw [tryNames]
    by_cases hci : matchesCI n
        ['f', 'o', 'o', '>', 'b', '<', '/', 'f', 'o', 'o', '>', ' ', 'c'] = true
    · rw [if_pos hci]
      rcases n with _ | ⟨a, _ | ⟨b, _ | ⟨c', _ | ⟨d, t⟩⟩⟩⟩
      · exact absurd rfl hne
      · rw [show ([a] : List Char).length = 1 from rfl]
        rw [show matchTail (List.drop 1
            ['f', 'o', 'o', '>', 'b', '<', '/', 'f', 'o', 'o', '>', ' ', 'c']) = none
          from by decide]
        exact ih hns
      · rw [show ([a, b] : List Char).length = 2 from rfl]
        rw [show matchTail (List.drop 2
            ['f', 'o', 'o', '>', 'b', '<', '/', 'f', 'o', 'o', '>', ' ', 'c']) = none
          from by decide]
        exact ih hns
      · exfalso
        obtain ⟨h1, hci⟩ := matchesCI_cons hci
        obtain ⟨h2, hci⟩ := matchesCI_cons hci
        obtain ⟨h3, _⟩ := matchesCI_cons hci
        apply hfoo
        have hf : lowerChar 'f' = 'f' := by decide
        have ho : lowerChar 'o' = 'o' := by decide
        simp [lowerStr, h1, h2, h3, hf, ho]
      · exfalso
        obtain ⟨_, hci⟩ := matchesCI_cons hci
        obtain ⟨_, hci⟩ := matchesCI_cons hci
        obtain ⟨_, hci⟩ := matchesCI_cons hci
        obtain ⟨h4, _⟩ := matchesCI_cons hci
        have hgt : lowerChar '>' = '>' := by decide
        exact word_lower_ne_gt (hw d (by simp)) (h4.trans hgt)
    · rw [if_neg hci]
      exact ih hns

theorem tryNames_closing_none :
    ∀ names : List (List Char), (∀ n ∈ names, plainTagName n) →
      tryNames names ['/', 'f', 'o', 'o', '>', ' ', 'c'] = none := by
  intro names
  induction names with
  | nil => intro _; rfl
  | cons n ns ih =>
    intro h
    obtain ⟨hne, hw, _⟩ := h n (by simp)
    have hns : ∀ m ∈ ns, plainTagName m := fun m hm => h m (by simp [hm])
    rw [tryNames]
    by_cases hci : matchesCI n ['/', 'f', 'o', 'o', '>', ' ', 'c'] = true
    · exfalso
      rcases n with _ | ⟨a, t⟩
      · exact absurd rfl hne
      · obtain ⟨h1, _⟩ := matchesCI_cons hci
        have hsl : lowerChar '/' = '/' := by decide
        exact word_lower_ne_slash (hw a (by simp)) (h1.trans hsl)
    · rw [if_neg hci]
      exact ih hns

theorem findTagAux_cons_none {names : List (List Char)} {c : Char} {cs : List Char}
    (h1 : matchTagAt names (c :: cs) = none) (h2 : findTagAux names cs = none) :
    findTagAux names (c :: cs) = none := by
  rw [findTagAux, h1, h2]
  rfl

theorem findTagAux_c6_none (names : List (List Char))
    (h : ∀ n ∈ names, plainTagName n) :
    findTagAux names
      ['a', ' ', '<', 'f', 'o', 'o', '>', 'b', '<', '/', 'f', 'o', 'o', '>', ' ', 'c'] =
      none := by
  apply findTagAux_cons_none (matchTagAt_ne_lt (by decide))
  apply findTagAux_cons_none (matchTagAt_ne_lt (by decide))
  apply findTagAux_cons_none ((matchTagAt_lt names _).trans (tryNames_foo_none names h))
  apply findTagAux_cons_none (matchTagAt_ne_lt (by decide))
  apply findTagAux_cons_none (matchTagAt_ne_lt (by decide))
  apply findTagAux_cons_none (matchTagAt_ne_lt (by decide))
  apply findTagAux_cons_none (matchTagAt_ne_lt (by decide))
  apply findTagAux_cons_none (matchTagAt_ne_lt (by decide))
  apply findTagAux_cons_none ((matchTagAt_lt names _).trans (tryNames_closing_none names h))
  apply findTagAux_cons_none (matchTagAt_ne_lt (by decide))
  apply findTagAux_cons_none (matchTagAt_ne_lt (by decide))
  apply findTagAux_cons_none (matchTagAt_ne_lt (by decide))
  apply findTagAux_cons_none (matchTagAt_ne_lt (by decide))
  apply findTagAux_cons_none (matchTagAt_ne_lt (by decide))
  apply findTagAux_cons_none (matchTagAt_ne_lt (by decide))
  apply findTagAux_cons_none (matchTagAt_ne_lt (by decide))
  rfl

/-- C6: for every registry whose names are non-empty `\w`-words and none of
which spells `foo` (case-insensitively), the tag matcher never fires on
`"a <foo>b</foo> c"`, and `parse` returns the entire input as a single text
segment, angle brackets included. -/
theorem C6_unknown_tag_passthrough (reg : Registry)
    (h : ∀ n ∈ reg.names, plainTagName n) :
    parse reg (("a <foo>b</foo> c").toList) =
      [⟨textType, ("a <foo>b</foo> c").toList, none⟩] := by
  have hfind : findOpeningTag reg.names (("a <foo>b</foo> c").toList) = none := by
    rw [findOpeningTag, effNames]
    by_cases hn : reg.names = []
    · rw [if_pos hn]
      decide
    · rw [if_neg hn]
      rw [show (("a <foo>b</foo> c").toList) =
        ['a', ' ', '<', 'f', 'o', 'o', '>', 'b', '<', '/', 'f', 'o', 'o', '>', ' ', 'c']
        from by decide]
      exact findTagAux_c6_none reg.names h
  rw [parse_no_tag hfind (by decide)]
  rw [show mkText (("a <foo>b</foo> c").toList) =
    ⟨textType, ("a <foo>b</foo> c").toList, none⟩ from by decide]

/-- Witness for C6: the documentation registry contains no `foo`, and the
input passes through as one text segment. -/
theorem C6_unknown_tag_passthrough_witness :
    parse R0 (("a <foo>b</foo> c").toList) =
      [⟨textType, ("a <foo>b</foo> c").toList, none⟩] :=
  C6_unknown_tag_passthrough R0 (by decide)


theorem takeWordRun_append : ∀ s : List Char, (takeWordRun s).1 ++ (takeWordRun s).2 = s := by
  intro s
  induction s with
  | nil => rfl
  | cons c cs ih =>
    rw [takeWordRun]
    by_cases h : isWordChar c = true
    · simp only [h, if_true, List.cons_append]
      rw [ih]
    · simp [h]

theorem scanQuoted_length {q : Char} :
    ∀ {s v rest : List Char}, scanQuoted q s = some (v, rest) →
      rest.length < s.length := by
  intro s
  induction s with
  | nil => intro v rest h; simp [scanQuoted] at h
  | cons c cs ih =>
    intro v rest h
    rw [scanQuoted] at h
    by_cases hc : c = q
    · rw [if_pos hc] at h
      simp only [Option.some_inj] at h
      have hr : rest = cs := (congrArg Prod.snd h).symm
      subst hr
      simp
    · rw [if_neg hc] at h
      cases hs : scanQuoted q cs with
      | none => rw [hs] at h; simp at h
      | some p =>
        rw [hs] at h
        simp only [Option.map_some', Option.some_inj] at h
        have hr : rest = p.2 := (congrArg (fun x => x.2) h).symm
        subst hr
        have := @ih p.1 p.2 (by rw [hs])
        simp only [List.length_cons]
        omega

theorem tryPair_length : ∀ {s k v rest : List Char},
    tryPair s = some (k, v, rest) → rest.length < s.length := by
  intro s k v rest h
  rw [tryPair] at h
  by_cases hw : ((takeWordRun s).1).isEmpty
  · rw [if_pos hw] at h; simp at h
  · rw [if_neg hw] at h
    have hs : s.length = ((takeWordRun s).1).length + ((takeWordRun s).2).length := by
      conv_lhs => rw [← takeWordRun_append s]
      rw [List.length_append]
    split at h
    case _ q r' heq =>
      have hr2 : ((takeWordRun s).2).length = r'.length + 2 := by
        rw [heq]; simp
      by_cases hq : q = dqc
      · rw [if_pos hq] at h
        cases hsq : scanQuoted dqc r' with
        | none => rw [hsq] at h; simp at h
        | some p =>
          rw [hsq] at h
          simp only [Option.map_some', Option.some_inj] at h
          have hr : rest = p.2 := by
            have := congrArg (fun x => x.2.2) h
            simpa using this.symm
          subst hr
          have h1 := @scanQuoted_length dqc r' p.1 p.2 (by rw [hsq])
          omega
      · rw [if_neg hq] at h
        by_cases hq2 : q = sqc
        · rw [if_pos hq2] at h
          cases hsq : scanQuoted sqc r' with
          | none => rw [hsq] at h; simp at h
          | some p =>
            rw [hsq] at h
            simp only [Option.map_some', Option.some_inj] at h
            have hr : rest = p.2 := by
              have := congrArg (fun x => x.2.2) h
              simpa using this.symm
            subst hr
            have h1 := @scanQuoted_length sqc r' p.1 p.2 (by rw [hsq])
            omega
        · rw [if_neg hq2] at h
          simp at h
    case _ =>
      simp at h

theorem attrScanF_isSome : ∀ (fuel : Nat) (s : List Char), s.length < fuel →
    (attrScanF fuel s).isSome := by
  intro fuel
  induction fuel with
  | zero => intro s h; omega
  | succ f ih =>
    intro s h
    cases s with
    | nil => simp [attrScanF]
    | cons c cs =>
      rw [attrScanF]
      cases ht : tryPair (c :: cs) with
      | some p =>
        obtain ⟨k, v, rest⟩ := p
        have hlt := tryPair_length ht
        simp only [List.length_cons] at hlt h
        have := ih rest (by omega)
        simpa using this
      | none =>
        apply ih
        simp only [List.length_cons] at h
        omega

theorem lookupA_assocSet : ∀ (m : List (List Char × List Char)) (k0 v0 k : List Char),
    lookupA k (assocSet m k0 v0) = if k0 = k then some v0 else lookupA k m := by
  intro m k0 v0 k
  induction m with
  | nil => simp [assocSet, lookupA]
  | cons p rest ih =>
    obtain ⟨k', v'⟩ := p
    rw [assocSet]
    by_cases h : k' = k0
    · rw [if_pos h]
      by_cases hk : k0 = k
      · simp [lookupA, hk]
      · simp [lookupA, hk, h]
    · rw [if_neg h]
      by_cases hk : k' = k
      · have : ¬k0 = k := fun hh => h (hk.trans hh.symm)
        simp [lookupA, hk, this]
      · simp [lookupA, hk, ih]

theorem lookupA_attrFold (l : List (List Char × List Char)) :
    ∀ (m : List (List Char × List Char)) (k : List Char),
      lookupA k (l.foldl (fun m kv => assocSet m kv.1 (decodeXmlEntities kv.2)) m) =
        (match lastVal k l with
          | some v => some (decodeXmlEntities v)
          | none => lookupA k m) := by
  induction l with
  | nil => intro m k; simp [lastVal]
  | cons kv rest ih =>
    intro m k
    obtain ⟨k0, v0⟩ := kv
    rw [List.foldl_cons, ih, lastVal]
    cases hl : lastVal k rest with
    | some w => simp
    | none =>
      simp only []
      rw [lookupA_assocSet]
      by_cases hk : k0 = k
      · simp [hk]
      · simp [hk]

theorem mem_keys_lookupA : ∀ (m : List (List Char × List Char)) (k : List Char),
    k ∈ m.map Prod.fst ↔ ¬lookupA k m = none := by
  intro m k
  induction m with
  | nil => simp [lookupA]
  | cons p rest ih =>
    obtain ⟨k', v⟩ := p
    by_cases h : k' = k
    · simp [lookupA, h]
    · rw [lookupA, if_neg h]
      simp only [List.map_cons, List.mem_cons]
      rw [← ih]
      constructor
      · intro hm
        rcases hm with hm | hm
        · exact absurd hm.symm h
        · exact hm
      · intro hm
        exact Or.inr hm

theorem mem_keys_lastVal : ∀ (l : List (List Char × List Char)) (k : List Char),
    k ∈ l.map Prod.fst ↔ ¬lastVal k l = none := by
  intro l k
  induction l with
  | nil => simp [lastVal]
  | cons p rest ih =>
    obtain ⟨k0, v0⟩ := p
    rw [lastVal]
    cases hl : lastVal k rest with
    | some w =>
      have : k ∈ rest.map Prod.fst := ih.mpr (by simp [hl])
      simp [this]
    | none =>
      have hnr : ¬k ∈ rest.map Prod.fst := fun hm => (ih.mp hm) hl
      simp only [List.map_cons, List.mem_cons]
      by_cases hk : k0 = k
      · simp [hk]
      · simp only [if_neg hk]
        constructor
        · intro hm
          rcases hm with hm | hm
          · exact absurd hm.symm hk
          · exact absurd hm hnr
        · intro hm
          exact absurd trivial hm

/-- C8: the attribute parser is total (its scanning fuel always suffices),
returns the empty map on the empty string, and yields a map whose keys are
exactly the identifiers of the `identifier=("..."|\u0027...\u0027)` pairs
found by the left-to-right non-overlapping scan over `s`, each key bound to
the entity-decoded value of its last occurrence; unmatched fragments
contribute nothing.  The final conjunct shows a concrete scan: a duplicate
key resolved to the later single-quoted value, stray text and a valueless
`x=` skipped, and an entity-decoded value. -/
theorem C8_parseAttributes :
    parseAttributes [] = [] ∧
      (∀ s : List Char, attrScanF (s.length + 1) s = some (attrScan s)) ∧
      (∀ s k : List Char, lookupA k (parseAttributes s) =
        Option.map decodeXmlEntities (lastVal k (attrScan s))) ∧
      (∀ s k : List Char, k ∈ (parseAttributes s).map Prod.fst ↔
        k ∈ (attrScan s).map Prod.fst) ∧
      parseAttributes ((" type=\"a\" type=\u0027b\u0027 junk x= y=\"&amp;\"").toList) =
        [(("type").toList, ("b").toList), (("y").toList, ("&").toList)] := by
  have h3 : ∀ s k : List Char, lookupA k (parseAttributes s) =
      Option.map decodeXmlEntities (lastVal k (attrScan s)) := by
    intro s k
    rw [parseAttributes, lookupA_attrFold]
    cases lastVal k (attrScan s) with
    | none => simp [lookupA]
    | some v => simp
  refine ⟨rfl, ?_, h3, ?_, by decide⟩
  · intro s
    have h := attrScanF_isSome (s.length + 1) s (by omega)
    obtain ⟨l, hl⟩ := Option.isSome_iff_exists.mp h
    rw [hl, attrScan, hl]
    rfl
  · intro s k
    rw [mem_keys_lookupA, mem_keys_lastVal, h3 s k]
    cases lastVal k (attrScan s) with
    | none => simp
    | some v => simp
theorem toNat_ofNat_valid (n : Nat) (h : n < 0xD800) : (Char.ofNat n).toNat = n := by
  unfold Char.ofNat
  rw [dif_pos (Or.inl h)]
  rfl

theorem lowerChar_idem (c : Char) : lowerChar (lowerChar c) = lowerChar c := by
  unfold lowerChar
  by_cases h : 65 ≤ c.toNat ∧ c.toNat ≤ 90
  · rw [if_pos h]
    have ht : (Char.ofNat (c.toNat + 32)).toNat = c.toNat + 32 :=
      toNat_ofNat_valid _ (by omega)
    rw [if_neg]
    rw [ht]
    omega
  · rw [if_neg h, if_neg h]

theorem lowerStr_idem (s : List Char) : lowerStr (lowerStr s) = lowerStr s := by
  unfold lowerStr
  rw [List.map_map]
  apply List.map_congr_left
  intro c _
  exact lowerChar_idem c

theorem passLt_ne_nil : ∀ {s : List Char}, s ≠ [] → passLt s ≠ [] := by
  intro s
  induction s using passLt.induct with
  | case1 rest ih => intro _; rw [passLt.eq_1]; simp
  | case2 c rest hne ih => intro _; rw [passLt.eq_2 c rest hne]; simp
  | case3 => intro h; exact absurd rfl h

theorem passGt_ne_nil : ∀ {s : List Char}, s ≠ [] → passGt s ≠ [] := by
  intro s
  induction s using passGt.induct with
  | case1 rest ih => intro _; rw [passGt.eq_1]; simp
  | case2 c rest hne ih => intro _; rw [passGt.eq_2 c rest hne]; simp
  | case3 => intro h; exact absurd rfl h

theorem passAmp_ne_nil : ∀ {s : List Char}, s ≠ [] → passAmp s ≠ [] := by
  intro s
  induction s using passAmp.induct with
  | case1 rest ih => intro _; rw [passAmp.eq_1]; simp
  | case2 c rest hne ih => intro _; rw [passAmp.eq_2 c rest hne]; simp
  | case3 => intro h; exact absurd rfl h

theorem passQuot_ne_nil : ∀ {s : List Char}, s ≠ [] → passQuot s ≠ [] := by
  intro s
  induction s using passQuot.induct with
  | case1 rest ih => intro _; rw [passQuot.eq_1]; simp
  | case2 c rest hne ih => intro _; rw [passQuot.eq_2 c rest hne]; simp
  | case3 => intro h; exact absurd rfl h

theorem decodeXmlEntities_ne_nil {s : List Char} (h : s ≠ []) :
    decodeXmlEntities s ≠ [] := by
  unfold decodeXmlEntities
  exact passQuot_ne_nil (passAmp_ne_nil (passGt_ne_nil (passLt_ne_nil h)))

theorem matchesCI_lower : ∀ {n rest : List Char}, matchesCI n rest = true →
    lowerStr (rest.take n.length) = lowerStr n := by
  intro n
  induction n with
  | nil => intro rest _; rfl
  | cons a as ih =>
    intro rest h
    cases rest with
    | nil => simp [matchesCI] at h
    | cons b bs =>
      obtain ⟨h1, h2⟩ := by
        simpa [matchesCI, Bool.and_eq_true, decide_eq_true_eq] using h
      simp only [List.length_cons, List.take_succ_cons, lowerStr, List.map_cons]
      rw [← h1]
      have := ih h2
      simp only [lowerStr] at this
      rw [this]

theorem tryNames_name : ∀ (names : List (List Char)) (rest : List Char) (cap : TagCap),
    tryNames names rest = some cap →
    ∃ n ∈ names, cap.name = rest.take n.length ∧ matchesCI n rest = true := by
  intro names
  induction names with
  | nil => intro rest cap h; simp [tryNames] at h
  | cons n ns ih =>
    intro rest cap h
    rw [tryNames] at h
    by_cases hci : matchesCI n rest = true
    · rw [if_pos hci] at h
      cases hmt : matchTail (rest.drop n.length) with
      | some p =>
        rw [hmt] at h
        obtain ⟨a, sl, tl⟩ := p
        simp only [Option.some_inj] at h
        refine ⟨n, by simp, ?_, hci⟩
        rw [← h]
      | none =>
        rw [hmt] at h
        obtain ⟨m, hm, hrest⟩ := ih rest cap h
        exact ⟨m, by simp [hm], hrest⟩
    · rw [if_neg hci] at h
      obtain ⟨m, hm, hrest⟩ := ih rest cap h
      exact ⟨m, by simp [hm], hrest⟩

theorem findTagAux_name : ∀ (names : List (List Char)) (s : List Char) (p : Nat)
    (cap : TagCap), findTagAux names s = some (p, cap) →
    ∃ n ∈ names, lowerStr cap.name = lowerStr n := by
  intro names s
  induction s with
  | nil => intro p cap h; simp [findTagAux] at h
  | cons c cs ih =>
    intro p cap h
    rw [findTagAux] at h
    cases hm : matchTagAt names (c :: cs) with
    | some cap' =>
      rw [hm] at h
      simp only [Option.some_inj] at h
      have hcap : cap = cap' := congrArg Prod.snd h.symm
      subst hcap
      rw [matchTagAt] at hm
      by_cases hc : c = '<'
      · rw [if_pos hc] at hm
        obtain ⟨n, hn, hname, hci⟩ := tryNames_name names cs cap hm
        exact ⟨n, hn, by rw [hname]; exact matchesCI_lower hci⟩
      · rw [if_neg hc] at hm
        simp at hm
    | none =>
      rw [hm] at h
      cases hf : findTagAux names cs with
      | none => rw [hf] at h; simp at h
      | some q =>
        rw [hf] at h
        obtain ⟨p', cap'⟩ := q
        simp only [Option.map_some', Option.some_inj] at h
        have hcap : cap = cap' := congrArg Prod.snd h.symm
        subst hcap
        exact ih p' cap hf

theorem findOpeningTag_lower_ne_text {reg : Registry} {s : List Char} {p : Nat}
    {cap : TagCap} (h : noTextTag reg)
    (hfind : findOpeningTag reg.names s = some (p, cap)) :
    lowerStr (lowerStr cap.name) ≠ textType := by
  rw [findOpeningTag, effNames] at hfind
  by_cases hn : reg.names = []
  · rw [if_pos hn] at hfind
    obtain ⟨n, hnmem, hlow⟩ := findTagAux_name _ _ _ _ hfind
    have : n = [] := by simpa using hnmem
    subst this
    rw [hlow]
    decide
  · rw [if_neg hn] at hfind
    obtain ⟨n, hnmem, hlow⟩ := findTagAux_name _ _ _ _ hfind
    rw [hlow, lowerStr_idem]
    exact h n hnmem

theorem noEmptyText_append {a b : List Segment} (ha : noEmptyText a)
    (hb : noEmptyText b) : noEmptyText (a ++ b) := by
  intro g hg ht
  rcases List.mem_append.mp hg with hm | hm
  · exact ha g hm ht
  · exact hb g hm ht

theorem noEmptyText_nil : noEmptyText [] := by
  intro g hg
  simp at hg

theorem noEmptyText_flushText (tb : List Char) : noEmptyText (flushText tb) := by
  intro g hg ht
  rw [flushText] at hg
  by_cases h : tb = []
  · rw [if_pos h] at hg
    simp at hg
  · rw [if_neg h] at hg
    simp only [List.mem_singleton] at hg
    subst hg
    exact decodeXmlEntities_ne_nil h

theorem noEmptyText_mkText {tb : List Char} (h : tb ≠ []) :
    noEmptyText [mkText tb] := by
  intro g hg ht
  simp only [List.mem_singleton] at hg
  subst hg
  exact decodeXmlEntities_ne_nil h

theorem createSegment_type (reg : Registry) (tagName attrs content : List Char) :
    (createSegment reg tagName attrs content).type = lowerStr tagName := rfl

theorem noEmptyText_createSegment {reg : Registry} {tagName attrs content : List Char}
    (h : lowerStr tagName ≠ textType) :
    noEmptyText [createSegment reg tagName attrs content] := by
  intro g hg ht
  simp only [List.mem_singleton] at hg
  subst hg
  exact absurd ht h

theorem parseLoopF_inv {reg : Registry} (hreg : noTextTag reg) :
    ∀ (fuel : Nat) (rem tb : List Char) (segs out : List Segment),
      parseLoopF reg fuel rem tb segs = some out → noEmptyText segs →
      noEmptyText out := by
  intro fuel
  induction fuel with
  | zero =>
    intro rem tb segs out heq hsegs
    rw [parseLoopF_zero] at heq
    split at heq
    · simp only [Option.some_inj] at heq
      subst heq
      exact noEmptyText_append hsegs (noEmptyText_flushText tb)
    · simp at heq
  | succ f ih =>
    intro rem tb segs out heq hsegs
    rw [parseLoopF_succ] at heq
    split at heq
    · simp only [Option.some_inj] at heq
      subst heq
      exact noEmptyText_append hsegs (noEmptyText_flushText tb)
    · split at heq
      · exact ih _ _ _ _ heq hsegs
      · next p cap hfind =>
        split at heq
        · exact ih _ _ _ _ heq hsegs
        · have htype : lowerStr (lowerStr cap.name) ≠ textType :=
            findOpeningTag_lower_ne_text hreg hfind
          simp only [] at heq
          split at heq
          · refine ih _ _ _ _ heq ?_
            exact noEmptyText_append
              (noEmptyText_append hsegs (noEmptyText_flushText tb))
              (noEmptyText_createSegment htype)
          · split at heq
            · refine ih _ _ _ _ heq ?_
              exact noEmptyText_append
                (noEmptyText_append hsegs (noEmptyText_flushText tb))
                (noEmptyText_createSegment htype)
            · exact ih _ _ _ _ heq hsegs

theorem processOpenTag_inv {reg : Registry} (hreg : noTextTag reg)
    {rem : List Char} {st : PState} {segs : List Segment} {tb : List Char}
    {pu bl : Nat} {step : OpenTagStep}
    (heq : processOpenTag reg rem st segs tb pu bl = some step)
    (hst : stateOK st) (hsegs : noEmptyText segs) :
    noEmptyText step.segments ∧ stateOK step.state := by
  rw [processOpenTag] at heq
  split at heq
  case _ p cap hfind =>
    split at heq
    · simp only [Option.some_inj] at heq
      subst heq
      exact ⟨hsegs, hst⟩
    · split at heq
      · simp at heq
      · simp only [] at heq
        split at heq
        · simp only [Option.some_inj] at heq
          subst heq
          refine ⟨?_, hst⟩
          exact noEmptyText_append
            (noEmptyText_append hsegs (noEmptyText_flushText tb))
            (noEmptyText_createSegment (findOpeningTag_lower_ne_text hreg hfind))
        · simp only [Option.some_inj] at heq
          subst heq
          refine ⟨noEmptyText_append hsegs (noEmptyText_flushText tb), ?_⟩
          intro t ht
          have hv : some (lowerStr cap.name) = some t := ht
          have := Option.some.inj hv
          subst this
          exact findOpeningTag_lower_ne_text hreg hfind
  case _ hfind =>
    split at heq
    case _ q hql =>
      split at heq
      · simp only [Option.some_inj] at heq
        subst heq
        exact ⟨hsegs, hst⟩
      · simp only [Option.some_inj] at heq
        subst heq
        exact ⟨hsegs, hst⟩
    case _ =>
      simp only [Option.some_inj] at heq
      subst heq
      exact ⟨hsegs, hst⟩

theorem processInsideComponent_seg {reg : Registry} {rem t attrs after : List Char}
    {seg : Segment} (h : processInsideComponent reg rem t attrs = some (after, seg)) :
    seg.type = lowerStr t := by
  rw [processInsideComponent] at h
  split at h
  case _ q hq =>
    simp only [Option.some_inj] at h
    have : seg = createSegment reg t attrs (rem.take q) := (congrArg Prod.snd h).symm
    rw [this]
    rfl
  case _ => simp at h

theorem pcLoopF_inv {reg : Registry} (hreg : noTextTag reg) (bl : Nat) :
    ∀ (fuel : Nat) (rem tb : List Char) (pu : Nat) (st : PState)
      (segs : List Segment) (out : LoopOut),
      pcLoopF reg bl fuel rem tb pu st segs = some out → stateOK st →
      noEmptyText segs → noEmptyText out.segments ∧ stateOK out.state := by
  intro fuel
  induction fuel with
  | zero =>
    intro rem tb pu st segs out heq hst hsegs
    rw [pcLoopF_zero] at heq
    split at heq
    · simp only [Option.some_inj] at heq
      subst heq
      exact ⟨hsegs, hst⟩
    · simp at heq
  | succ f ih =>
    intro rem tb pu st segs out heq hst hsegs
    rw [pcLoopF_succ] at heq
    split at heq
    · simp only [Option.some_inj] at heq
      subst heq
      exact ⟨hsegs, hst⟩
    · split at heq
      · split at heq
        case _ t hct =>
          split at heq
          case _ pr hpi =>
            obtain ⟨after, seg⟩ := pr
            refine ih _ _ _ _ _ _ heq ?_ ?_
            · intro t' ht'
              exact absurd ht' (by simp)
            · refine noEmptyText_append hsegs ?_
              intro g hg htype
              simp only [List.mem_singleton] at hg
              subst hg
              have hty := processInsideComponent_seg hpi
              rw [htype] at hty
              exact absurd hty.symm (hst t hct)
          case _ =>
            simp only [Option.some_inj] at heq
            subst heq
            exact ⟨hsegs, hst⟩
        case _ =>
          simp only [Option.some_inj] at heq
          subst heq
          exact ⟨hsegs, hst⟩
      · split at heq
        case _ step hpo =>
          have hb := processOpenTag_inv hreg hpo hst hsegs
          exact ih _ _ _ _ _ _ heq hb.2 hb.1
        case _ =>
          simp only [Option.some_inj] at heq
          subst heq
          exact ⟨hsegs, hst⟩

theorem noEmptyText_finalize (st : PState) : noEmptyText (finalize st) := by
  rw [finalize]
  split
  · exact noEmptyText_nil
  · next h => exact noEmptyText_mkText h

theorem parseChunkF_noEmptyText {reg : Registry} (hreg : noTextTag reg)
    {fuel : Nat} {chunk : List Char} {st : PState} {res : StreamResult}
    (heq : parseChunkF reg fuel chunk st = some res) (hst : stateOK st) :
    noEmptyText res.segments := by
  rw [parseChunkF] at heq
  simp only [] at heq
  split at heq
  case _ => simp at heq
  case _ out hloop =>
    have hst0 : stateOK ({ st with buffer := st.buffer ++ chunk } : PState) := by
      intro t ht
      exact hst t ht
    have hb := pcLoopF_inv hreg (st.buffer ++ chunk).length fuel _ _ _ _ _ _
      hloop hst0 noEmptyText_nil
    simp only [Option.some_inj] at heq
    subst heq
    simp only []
    split
    · next hfn =>
      have htb : out.textBuffer ≠ [] := by
        have := (Bool.and_eq_true _ _).mp hfn
        have h2 := this.2
        simp only [Bool.not_eq_true'] at h2
        exact fun hh => by
          rw [hh] at h2
          simp at h2
      exact noEmptyText_append hb.1 (noEmptyText_mkText htb)
    · exact hb.1

/-- C10 (amended): for every registry in which no registered tag name
lower-cases to `text`, every segment of type `text` returned by `parse`, by
`parseChunk` (on a state whose recorded open tag does not lower-case to
`text`), or by `finalize` has non-empty content: text segments are only
pushed through the guarded `addTextSegment`/`finalize` paths, whose contents
are non-empty and stay non-empty under entity decoding, and tag segments
carry a registered (hence non-`text`) type. -/
theorem C10_no_empty_text (reg : Registry) (hreg : noTextTag reg) :
    (∀ s : List Char, noEmptyText (parse reg s)) ∧
      (∀ (fuel : Nat) (chunk : List Char) (st : PState) (res : StreamResult),
        stateOK st → parseChunkF reg fuel chunk st = some res →
        noEmptyText res.segments) ∧
      (∀ st : PState, noEmptyText (finalize st)) := by
  refine ⟨?_, ?_, fun st => noEmptyText_finalize st⟩
  · intro s
    rw [parse]
    cases h : parseLoopF reg (s.length + 1) s [] [] with
    | none => exact noEmptyText_nil
    | some out =>
      have := parseLoopF_inv hreg _ _ _ _ _ h noEmptyText_nil
      simpa using this
  · intro fuel chunk st res hst heq
    exact parseChunkF_noEmptyText hreg heq hst

/-- Witness for C10: the documentation registry has no tag named `text`, and
the single-character parse has no empty text segment. -/
theorem C10_no_empty_text_witness : noEmptyText (parse R0 (("x").toList)) :=
  (C10_no_empty_text R0 (by decide)).1 (("x").toList)

theorem hasSub_false_of_head_notMem {p : Char} {ps : List Char} :
    ∀ {s : List Char}, p ∉ s → hasSub (p :: ps) s = false := by
  intro s
  induction s with
  | nil => intro _; rfl
  | cons c cs ih =>
    intro h
    rw [hasSub]
    have hc : ¬(p == c) = true := by
      simp only [beq_iff_eq]
      intro hh
      exact h (by simp [hh])
    have hcs : p ∉ cs := fun hh => h (List.mem_cons_of_mem _ hh)
    rw [List.isPrefixOf]
    simp only [Bool.or_eq_false_iff, Bool.and_eq_false_iff]
    constructor
    · left
      simpa using hc
    · exact ih hcs

theorem decode_id_of_no_amp {s : List Char} (h : '&' ∉ s) :
    decodeXmlEntities s = s := by
  have h1 : hasSub (("&lt;").toList) s = false := by
    rw [show ("&lt;").toList = '&' :: ("lt;").toList from by decide]
    exact hasSub_false_of_head_notMem h
  have h2 : hasSub (("&gt;").toList) s = false := by
    rw [show ("&gt;").toList = '&' :: ("gt;").toList from by decide]
    exact hasSub_false_of_head_notMem h
  have h3 : hasSub (("&amp;").toList) s = false := by
    rw [show ("&amp;").toList = '&' :: ("amp;").toList from by decide]
    exact hasSub_false_of_head_notMem h
  have h4 : hasSub (("&quot;").toList) s = false := by
    rw [show ("&quot;").toList = '&' :: ("quot;").toList from by decide]
    exact hasSub_false_of_head_notMem h
  unfold decodeXmlEntities
  rw [passLt_id h1, passGt_id h2, passAmp_id h3, passQuot_id h4]

theorem pcLoopF_plain (reg : Registry) (bl : Nat) (fuel : Nat) (hf : 1 ≤ fuel)
    (c : List Char) (hlt : '<' ∉ c) (st : PState) (hic : st.inComponent = false) :
    pcLoopF reg bl fuel c [] 0 st [] = some ⟨[], c, st, []⟩ := by
  cases c with
  | nil => rw [pcLoopF_nil]
  | cons x xs =>
    obtain ⟨f, rfl⟩ : ∃ f, fuel = f + 1 := ⟨fuel - 1, by omega⟩
    rw [pcLoopF_succ]
    rw [if_neg (by simp)]
    have hic2 : inComponentTruthy st = false := by simp [inComponentTruthy, hic]
    have hpo : processOpenTag reg (x :: xs) st [] [] 0 bl =
        some ⟨[], [] ++ (x :: xs), bl, st, []⟩ := by
      rw [processOpenTag, findOpeningTag_none_of_no_lt hlt,
        lastIdxOfLt_none_of_no_lt hlt]
    simp only [hic2, Bool.false_eq_true, if_false, hpo]
    rw [pcLoopF_nil]
    simp

theorem parseChunkF_plain (reg : Registry) (fuel : Nat) (hf : 1 ≤ fuel)
    (c : List Char) (hlt : '<' ∉ c) :
    parseChunkF reg fuel c createState =
      some ⟨if c.isEmpty then [] else [mkText c], createState, false, none, none⟩ := by
  rw [parseChunkF]
  simp only [createState, List.nil_append]
  rw [pcLoopF_plain reg c.length fuel hf c hlt _ rfl]
  simp only []
  cases c with
  | nil => rfl
  | cons x xs => rfl

theorem streamGo_plain (reg : Registry) (fuel : Nat) (hf : 1 ≤ fuel) :
    ∀ (chunks : List (List Char)), (∀ c ∈ chunks, '<' ∉ c) →
    ∀ acc : List Segment, streamGo reg fuel chunks createState acc =
      some (acc ++ (chunks.filter (fun c => !c.isEmpty)).map (fun c => mkText c)) := by
  intro chunks
  induction chunks with
  | nil =>
    intro _ acc
    rw [streamGo]
    simp [finalize, createState]
  | cons c cs ih =>
    intro h acc
    rw [streamGo]
    rw [parseChunkF_plain reg fuel hf c (h c (by simp))]
    simp only []
    rw [ih (fun m hm => h m (by simp [hm]))]
    by_cases hc : c.isEmpty
    · have : c = [] := by simpa using hc
      subst this
      simp
    · have hne : ¬c = [] := by simpa using hc
      simp [hc, List.filter_cons, List.append_assoc]

theorem mem_join_of_mem {chunks : List (List Char)} {x : Char}
    (hx : x ∈ chunks.join) : ∃ c ∈ chunks, x ∈ c := by
  simpa using List.mem_join.mp hx

/-- C1 (amended): on inputs containing neither `<` nor `&`, streaming is
chunk-invariant only up to coalescing adjacent text segments: every split
streams into exactly one text segment per non-empty chunk (with the chunk as
content) plus nothing from `finalize`, while `parse` of the joined input is
the single text segment holding the whole input. -/
theorem C1_text_coalescing (reg : Registry) (fuel : Nat) (chunks : List (List Char))
    (hf : 1 ≤ fuel) (hc : ∀ c ∈ chunks, '<' ∉ c ∧ '&' ∉ c) :
    streamAll reg fuel chunks =
        some ((chunks.filter (fun c => !c.isEmpty)).map
          (fun c => (⟨textType, c, none⟩ : Segment))) ∧
      ((chunks.filter (fun c => !c.isEmpty)).map
          (fun c => (⟨textType, c, none⟩ : Segment))).map Segment.content =
        chunks.filter (fun c => !c.isEmpty) ∧
      parse reg chunks.join =
        (if chunks.join.isEmpty then []
         else [⟨textType, chunks.join, none⟩]) := by
  refine ⟨?_, ?_, ?_⟩
  · rw [streamAll, streamGo_plain reg fuel hf chunks (fun c hm => (hc c hm).1)]
    simp only [List.nil_append]
    congr 1
    apply List.map_congr_left
    intro c hm
    have hmem : c ∈ chunks := List.mem_of_mem_filter hm
    rw [mkText, decode_id_of_no_amp (hc c hmem).2]
  · rw [List.map_map]
    exact List.map_id _
  · by_cases hj : chunks.join.isEmpty
    · have : chunks.join = [] := by simpa using hj
      rw [this, if_pos (by simp)]
      exact parse_nil reg
    · have hne : chunks.join ≠ [] := by simpa using hj
      have hlt : '<' ∉ chunks.join := by
        intro hx
        obtain ⟨c, hcm, hxc⟩ := mem_join_of_mem hx
        exact (hc c hcm).1 hxc
      have hamp : '&' ∉ chunks.join := by
        intro hx
        obtain ⟨c, hcm, hxc⟩ := mem_join_of_mem hx
        exact (hc c hcm).2 hxc
      rw [if_neg (by simpa using hne)]
      rw [parse_no_tag (findOpeningTag_none_of_no_lt hlt) hne]
      rw [mkText, decode_id_of_no_amp hamp]

/-- Witness for C1: the split `["ab", "cd"]` of `"abcd"`. -/
theorem C1_text_coalescing_witness :
    streamAll R0 5 chunksC1 =
        some ((chunksC1.filter (fun c => !c.isEmpty)).map
          (fun c => (⟨textType, c, none⟩ : Segment))) ∧
      ((chunksC1.filter (fun c => !c.isEmpty)).map
          (fun c => (⟨textType, c, none⟩ : Segment))).map Segment.content =
        chunksC1.filter (fun c => !c.isEmpty) ∧
      parse R0 chunksC1.join =
        (if chunksC1.join.isEmpty then []
         else [⟨textType, chunksC1.join, none⟩]) :=
  C1_text_coalescing R0 5 chunksC1 (by decide) (by decide)

theorem tryNames_len_pos : ∀ (names : List (List Char)) (rest : List Char)
    (cap : TagCap), tryNames names rest = some cap → 1 ≤ cap.len := by
  intro names
  induction names with
  | nil => intro rest cap h; simp [tryNames] at h
  | cons n ns ih =>
    intro rest cap h
    rw [tryNames] at h
    split at h
    · split at h
      · next a sl tl hmt =>
        simp only [Option.some_inj] at h
        subst h
        simp only []
        omega
      · exact ih rest cap h
    · exact ih rest cap h

theorem matchTagAt_len_pos {names : List (List Char)} {s : List Char} {cap : TagCap}
    (h : matchTagAt names s = some cap) : 1 ≤ cap.len := by
  cases s with
  | nil => simp [matchTagAt] at h
  | cons c cs =>
    rw [matchTagAt] at h
    split at h
    · exact tryNames_len_pos names cs cap h
    · simp at h

theorem findTagAux_len_pos : ∀ {names : List (List Char)} {s : List Char} {p : Nat}
    {cap : TagCap}, findTagAux names s = some (p, cap) → 1 ≤ cap.len := by
  intro names s
  induction s with
  | nil => intro p cap h; simp [findTagAux] at h
  | cons c cs ih =>
    intro p cap h
    rw [findTagAux] at h
    cases hm : matchTagAt names (c :: cs) with
    | some cap' =>
      rw [hm] at h
      simp only [Option.some_inj] at h
      have : cap = cap' := congrArg Prod.snd h.symm
      subst this
      exact matchTagAt_len_pos hm
    | none =>
      rw [hm] at h
      cases hf : findTagAux names cs with
      | none => rw [hf] at h; simp at h
      | some q =>
        rw [hf] at h
        obtain ⟨p', cap'⟩ := q
        simp only [Option.map_some', Option.some_inj] at h
        have : cap = cap' := congrArg Prod.snd h.symm
        subst this
        exact ih hf

theorem findOpeningTag_len_pos {names : List (List Char)} {s : List Char} {p : Nat}
    {cap : TagCap} (h : findOpeningTag names s = some (p, cap)) : 1 ≤ cap.len :=
  findTagAux_len_pos h

/-- The fuel given to the parse loop by `parse` always suffices: each
iteration either strictly shortens the unscanned remainder or empties it. -/
theorem parseLoopF_isSome (reg : Registry) :
    ∀ (fuel : Nat) (rem tb : List Char) (segs : List Segment),
      rem.length < fuel → (parseLoopF reg fuel rem tb segs).isSome := by
  intro fuel
  induction fuel with
  | zero => intro rem tb segs h; omega
  | succ f ih =>
    intro rem tb segs h
    rw [parseLoopF_succ]
    by_cases hr : rem = []
    · simp [hr]
    · rw [if_neg hr]
      have hlen : 1 ≤ rem.length := by
        cases rem with
        | nil => exact absurd rfl hr
        | cons x xs => simp
      cases hfind : findOpeningTag reg.names rem with
      | none =>
        simp only [hfind]
        apply ih
        simp only [List.length_nil]
        omega
      | some pc =>
        obtain ⟨p, cap⟩ := pc
        have hcap : 1 ≤ cap.len := findOpeningTag_len_pos hfind
        simp only [hfind]
        by_cases hp : p > 0
        · rw [if_pos hp]
          apply ih
          rw [List.length_drop]
          omega
        · rw [if_neg hp]
          split
          · apply ih
            rw [List.length_drop]
            omega
          · split
            · apply ih
              rw [List.length_drop]
              omega
            · apply ih
              rw [List.length_drop]
              omega

/-- `parse`'s `getD` never takes its default: the loop completes on the
supplied fuel and `parse` returns exactly its output. -/
theorem parseLoopF_complete (reg : Registry) (s : List Char) :
    parseLoopF reg (s.length + 1) s [] [] = some (parse reg s) := by
  have h := parseLoopF_isSome reg (s.length + 1) s [] [] (by omega)
  obtain ⟨out, hout⟩ := Option.isSome_iff_exists.mp h
  rw [hout, parse, hout]
  rfl
